import Mathlib

/-!
Verification of the bencode/torrent metadata front end of a BitTorrent client
(`src/main.rs`), shallowly embedded in Lean 4.

Bytes are modelled as `Nat` (with `< 256` hypotheses where a claim needs the
`u8` range), Rust `u64`/`u16` values as `Nat` with explicit bounds or `% 2^w`
where the source can wrap, and fallible code as `Except`/`Option`.  Rust panics
(`unwrap`/`expect`) are modelled by a dedicated `RunResult.panic` constructor,
kept distinct from typed errors returned to the caller.
-/

namespace BitTorrent

/-! ## Decimal ASCII digits

Rust renders integers (bencode integer payloads and byte-string length
prefixes) as decimal ASCII, most significant digit first, with `0` rendered
as the single byte `48`. -/

/-- Little-endian decimal digits of `n` (from `Nat.digits`), reversed to the
most-significant-first ASCII byte form Rust's formatter produces. -/
def nat_to_dec (n : Nat) : List Nat :=
  if n = 0 then [48] else (Nat.digits 10 n).reverse.map (fun d => d + 48)

/-- ASCII byte for a decimal digit test, as in the bencode grammar. -/
def is_digit (b : Nat) : Bool := 48 ≤ b && b ≤ 57

/-- Value of a most-significant-first list of ASCII decimal digit bytes. -/
def dec_value (ds : List Nat) : Nat :=
  ds.foldl (fun a b => a * 10 + (b - 48)) 0

/-- Decimal ASCII rendering of a signed integer (Rust `i64` Display):
a leading `-` (byte 45) for negative values, then the digits. -/
def int_to_dec (n : Int) : List Nat :=
  if n < 0 then 45 :: nat_to_dec (-n).toNat else nat_to_dec n.toNat

/-! ## Generic bencode values and the canonical encoder

Mirrors `serde_bencode::value::Value` (integer / byte string / list /
dictionary) and the byte encoding `serde_bencode::to_bytes` produces:
integers as `i…e`, byte strings as `<len>:<bytes>`, lists as `l…e`,
dictionaries as `d…e`.  `serde_bencode` emits dictionary entries sorted by
key; the encoder below emits entries in the order given, and for `Info` the
entry list handed to it is exactly the sorted order (proved in the theorem
for claim C2). -/

inductive Value where
  | int : Int → Value
  | bytes : List Nat → Value
  | list : List Value → Value
  | dict : List (List Nat × Value) → Value

/-- Bencode byte-string encoding: decimal length, colon (byte 58), raw bytes. -/
def enc_str (s : List Nat) : List Nat := nat_to_dec s.length ++ 58 :: s

mutual
/-- Canonical bencode encoding of a generic value
(`i…e` = 105/101, `l…e` = 108/101, `d…e` = 100/101). -/
def encode_value : Value → List Nat
  | .int n => 105 :: int_to_dec n ++ [101]
  | .bytes s => enc_str s
  | .list l => 108 :: encode_items l ++ [101]
  | .dict d => 100 :: encode_pairs d ++ [101]

/-- Concatenated encodings of list elements, in order. -/
def encode_items : List Value → List Nat
  | [] => []
  | v :: r => encode_value v ++ encode_items r

/-- Concatenated `key value` encodings of dictionary entries, in order. -/
def encode_pairs : List (List Nat × Value) → List Nat
  | [] => []
  | (k, v) :: r => enc_str k ++ encode_value v ++ encode_pairs r
end

/-- ASCII bytes of a (pure-ASCII) Rust string literal, used for the fixed
dictionary keys of the `Info` schema. -/
def key_bytes (s : String) : List Nat := s.toList.map Char.toNat

/-- Strict byte-lexicographic order on byte strings, the order bencode
canonical form sorts dictionary keys by. -/
def lex_lt : List Nat → List Nat → Bool
  | [], [] => false
  | [], _ :: _ => true
  | _ :: _, [] => false
  | a :: as, b :: bs => if a < b then true else if a = b then lex_lt as bs else false

/-! ## Torrent metadata schema -/

/-- Rust `Info` struct: `length: u64`, `name: String`, `piece length: u64`,
`pieces: Hashes`.  `name` is modelled by its UTF-8 byte content; `pieces` by
the list of 20-byte piece hashes the `Hashes` newtype wraps. -/
structure Info where
  length : Nat
  name : List Nat
  piece_length : Nat
  pieces : List (List Nat)
deriving DecidableEq

/-- Well-formedness that the Rust types guarantee by construction: `u64`
fields are below `2^64` and every element of `Hashes` is a `[u8; 20]`. -/
def Info.wf (i : Info) : Prop :=
  i.length < 18446744073709551616 ∧
  i.piece_length < 18446744073709551616 ∧
  ∀ p ∈ i.pieces, p.length = 20

/-- Dictionary entries of the bencode encoding of `Info`, in the order
`serde_bencode` emits them (sorted by key; here the struct declaration order
`length`, `name`, `piece length`, `pieces` already is the sorted order).
`Hashes::serialize` concatenates the 20-byte hashes into one byte string. -/
def info_entries (i : Info) : List (List Nat × Value) :=
  [ (key_bytes "length", .int i.length),
    (key_bytes "name", .bytes i.name),
    (key_bytes "piece length", .int i.piece_length),
    (key_bytes "pieces", .bytes i.pieces.flatten) ]

/-- Bencode encoding of `Info` as produced by `serde_bencode::to_bytes`. -/
def encode_info (i : Info) : List Nat := encode_value (.dict (info_entries i))

/-- Rust `Torrent` struct: announce URL plus `Info`. -/
structure Torrent where
  announce : String
  info : Info

/-! ## SHA-1

Faithful byte-level SHA-1 (FIPS 180-4) over `Nat`, words reduced mod `2^32`
explicitly.  Only the digest shape (20 bytes, each < 256) and determinism are
used by the claims; the compression function is embedded in full so the
definition computes the real digest. -/

/-- Reduce a word mod 2^32. -/
def w32 (n : Nat) : Nat := n % 4294967296

/-- Left-rotate a 32-bit word (input assumed < 2^32) by `s` bits. -/
def rotl (s n : Nat) : Nat := (n * 2 ^ s + n / 2 ^ (32 - s)) % 4294967296

/-- SHA-1 round function for rounds 0–19 (`Ch`). -/
def sha1_f1 (b c d : Nat) : Nat := (b &&& c) ||| ((4294967295 ^^^ b) &&& d)

/-- SHA-1 round function for rounds 20–39 and 60–79 (`Parity`). -/
def sha1_f2 (b c d : Nat) : Nat := b ^^^ c ^^^ d

/-- SHA-1 round function for rounds 40–59 (`Maj`). -/
def sha1_f3 (b c d : Nat) : Nat := (b &&& c) ||| (b &&& d) ||| (c &&& d)

/-- Round function selected by round index. -/
def sha1_f (i b c d : Nat) : Nat :=
  if i < 20 then sha1_f1 b c d
  else if i < 40 then sha1_f2 b c d
  else if i < 60 then sha1_f3 b c d
  else sha1_f2 b c d

/-- Round constant selected by round index. -/
def sha1_k (i : Nat) : Nat :=
  if i < 20 then 0x5A827999
  else if i < 40 then 0x6ED9EBA1
  else if i < 60 then 0x8F1BBCDC
  else 0xCA62C1D6

/-- Hash state: five 32-bit words. -/
structure SHA1State where
  h0 : Nat
  h1 : Nat
  h2 : Nat
  h3 : Nat
  h4 : Nat

/-- Initial SHA-1 state. -/
def sha1_init : SHA1State := ⟨0x67452301, 0xEFCDAB89, 0x98BADCFE, 0x10325476, 0xC3D2E1F0⟩

/-- Message-schedule extension, most-recent word first: prepends
`rotl 1 (w[t-3] ^^^ w[t-8] ^^^ w[t-14] ^^^ w[t-16])` `fuel` times. -/
def sha1_extend : Nat → List Nat → List Nat
  | 0, acc => acc
  | fuel + 1, acc =>
      sha1_extend fuel
        (rotl 1 (acc.getD 2 0 ^^^ acc.getD 7 0 ^^^ acc.getD 13 0 ^^^ acc.getD 15 0) :: acc)

/-- The 80-word schedule of a 16-word block. -/
def sha1_schedule (block : List Nat) : List Nat :=
  (sha1_extend 64 block.reverse).reverse

/-- One SHA-1 compression step at round `i` with schedule word `w`. -/
def sha1_step (st : Nat × Nat × Nat × Nat × Nat) (iw : Nat × Nat) : Nat × Nat × Nat × Nat × Nat :=
  match st, iw with
  | (a, b, c, d, e), (i, w) =>
      (w32 (rotl 5 a + sha1_f i b c d + e + sha1_k i + w), a, rotl 30 b, c, d)

/-- Compress one 16-word block into the running state. -/
def sha1_compress (st : SHA1State) (block : List Nat) : SHA1State :=
  match ((sha1_schedule block).enum.foldl sha1_step (st.h0, st.h1, st.h2, st.h3, st.h4)) with
  | (a, b, c, d, e) =>
      ⟨w32 (st.h0 + a), w32 (st.h1 + b), w32 (st.h2 + c), w32 (st.h3 + d), w32 (st.h4 + e)⟩

/-- Big-endian bytes of `n`, `k` bytes wide (truncating above `2^(8k)`). -/
def be_bytes : Nat → Nat → List Nat
  | 0, _ => []
  | k + 1, n => be_bytes k (n / 256) ++ [n % 256]

/-- Group bytes into big-endian 32-bit words, four bytes per word. -/
def words_of_bytes : List Nat → List Nat
  | b0 :: b1 :: b2 :: b3 :: r => (((b0 * 256 + b1) * 256 + b2) * 256 + b3) :: words_of_bytes r
  | _ => []

/-- SHA-1 padding: `0x80`, zeros to 56 mod 64, then the bit length as a
big-endian 64-bit integer. -/
def sha1_pad (msg : List Nat) : List Nat :=
  msg ++ 128 :: List.replicate ((120 - ((msg.length + 1) % 64)) % 64) 0
      ++ be_bytes 8 (8 * msg.length)

/-- Fold the compression function over consecutive 64-byte blocks. -/
def sha1_blocks (st : SHA1State) (bytes : List Nat) : SHA1State :=
  if bytes.isEmpty then st
  else sha1_blocks (sha1_compress st (words_of_bytes (bytes.take 64))) (bytes.drop 64)
termination_by bytes.length
decreasing_by
  rcases bytes with _ | ⟨b, r⟩
  · simp at *
  · simp only [List.drop_succ_cons, List.length_drop, List.length_cons]
    omega

/-- SHA-1 digest of a byte message: 20 bytes, big-endian words of the final
state. -/
def sha1 (msg : List Nat) : List Nat :=
  let st := sha1_blocks sha1_init (sha1_pad msg)
  be_bytes 4 st.h0 ++ be_bytes 4 st.h1 ++ be_bytes 4 st.h2 ++ be_bytes 4 st.h3 ++ be_bytes 4 st.h4

/-- Rust `Torrent::info_hash`: SHA-1 over the `serde_bencode` encoding of the
`info` field alone. -/
def Torrent.info_hash (t : Torrent) : List Nat := sha1 (encode_info t.info)

/-! ## Fixed-width chunk decoders

`HashesVisitor::visit_bytes` and `PeersVisitor::visit_bytes` both reject a
byte string whose length is not a multiple of the chunk width with
`E::custom(format!("length is {}", v.len()))`, then split it with
`chunks_exact`. -/

/-- Rust `<[u8]>::chunks_exact w`: consecutive `w`-byte windows; a final
fragment shorter than `w` is not produced.  (The visitors' length check
ensures no fragment is ever discarded.) -/
def chunks_exact (w : Nat) (l : List Nat) : List (List Nat) :=
  if w = 0 ∨ l.length < w then []
  else l.take w :: chunks_exact w (l.drop w)
termination_by l.length
decreasing_by
  simp only [List.length_drop]
  omega

/-- Rust `HashesVisitor::visit_bytes`: length check mod 20, then the list of
20-byte chunks. -/
def hashes_visit_bytes (v : List Nat) : Except String (List (List Nat)) :=
  if v.length % 20 ≠ 0 then .error ("length is " ++ Nat.repr v.length)
  else .ok (chunks_exact 20 v)

/-- Rust `Hashes::serialize`: `self.0.concat()` serialized as one byte
string (the byte-string payload; the bencode framing is added by
`enc_str`). -/
def hashes_serialize (hs : List (List Nat)) : List Nat := hs.flatten

/-- Rust `Peer { ip: String, port: u16 }`. -/
structure Peer where
  ip : String
  port : Nat
deriving DecidableEq

/-- Default value used only to totalize list indexing in statements. -/
instance : Inhabited Peer := ⟨⟨"", 0⟩⟩

/-- Rust `u16::from_be_bytes [hi, lo]`, reduced mod `2^16` as a `u16` is. -/
def u16_from_be (hi lo : Nat) : Nat := (hi * 256 + lo) % 65536

/-- Decoding of one 6-byte compact peer chunk, as in `PeersVisitor`:
`format!("{}.{}.{}.{}", c[0], c[1], c[2], c[3])` and
`u16::from_be_bytes([c[4], c[5]])`. -/
def peer_of_chunk (c : List Nat) : Peer :=
  ⟨Nat.repr (c.getD 0 0) ++ "." ++ Nat.repr (c.getD 1 0) ++ "." ++
     Nat.repr (c.getD 2 0) ++ "." ++ Nat.repr (c.getD 3 0),
   u16_from_be (c.getD 4 0) (c.getD 5 0)⟩

/-- Specification-side reading of a compact peer record, following the spec's
words: bytes 0..4 rendered dotted-decimal, bytes 4..6 read as a big-endian
unsigned 16-bit integer.  Compared against `peer_of_chunk` in claim C4. -/
def peer_spec : List Nat → Peer
  | b0 :: b1 :: b2 :: b3 :: b4 :: b5 :: _ =>
      ⟨Nat.repr b0 ++ "." ++ Nat.repr b1 ++ "." ++ Nat.repr b2 ++ "." ++ Nat.repr b3,
       256 * b4 + b5⟩
  | _ => ⟨"", 0⟩

/-- Rust `PeersVisitor::visit_bytes`: length check mod 6, then one `Peer`
per 6-byte chunk. -/
def peers_visit_bytes (v : List Nat) : Except String (List Peer) :=
  if v.length % 6 ≠ 0 then .error ("length is " ++ Nat.repr v.length)
  else .ok ((chunks_exact 6 v).map peer_of_chunk)

/-- Deserialization of the `peers` field driven by `PeersVisitor`: only
`visit_bytes` is implemented, so any non-byte-string bencode value hits a
default `serde` visitor method, which fails with an invalid-type error
carrying the visitor's `expecting` message. -/
def peers_expecting : String := "a byte string whose length is a multiple of 6"

/-- Error text of serde's default visitor methods (`visit_i64`, `visit_seq`,
`visit_map`): the unexpected input kind plus the visitor's expectation. -/
def invalid_type (got expected : String) : String :=
  "invalid type: " ++ got ++ ", expected " ++ expected

/-- Name serde gives each bencode value kind in invalid-type errors. -/
def value_kind : Value → String
  | .int _ => "integer"
  | .bytes _ => "byte string"
  | .list _ => "sequence"
  | .dict _ => "map"

/-- Peers deserialization over a parsed bencode value. -/
def peers_deserialize : Value → Except String (List Peer)
  | .bytes b => peers_visit_bytes b
  | .int _ => .error (invalid_type "integer" peers_expecting)
  | .list _ => .error (invalid_type "sequence" peers_expecting)
  | .dict _ => .error (invalid_type "map" peers_expecting)

/-! ## Tracker client session state -/

/-- Rust `Client` (minus the borrowed torrent being by-reference). -/
structure Client where
  peer_id : String
  port : Nat
  uploaded : Nat
  downloaded : Nat
  left : Nat
  torrent : Torrent

/-- Rust `Client::new`: fixed peer id, port 6881, zero counters, `left`
initialized from the torrent's length. -/
def Client.new (t : Torrent) : Client :=
  ⟨"00112233445566778899", 6881, 0, 0, t.info.length, t⟩

/-- Rust `TrackerRequest`. -/
structure TrackerRequest where
  peer_id : String
  port : Nat
  uploaded : Nat
  downloaded : Nat
  left : Nat
  compact : Nat

/-- The `TrackerRequest` value `Client::get_peers` builds from the session
state (always `compact = 1`). -/
def Client.tracker_request (c : Client) : TrackerRequest :=
  ⟨c.peer_id, c.port, c.uploaded, c.downloaded, c.left, 1⟩

/-! ## Percent-encoding of the info hash -/

/-- Lowercase hex digit character, as produced by `hex::encode`. -/
def hex_digit (n : Nat) : Char :=
  Char.ofNat (if n < 10 then 48 + n else 87 + n)

/-- Two lowercase hex digits of a byte (`hex::encode(&[byte])`). -/
def hex_byte (b : Nat) : List Char := [hex_digit (b / 16), hex_digit (b % 16)]

/-- Rust `urlencode(&[u8; 20])`: a `%` and two hex digits per byte,
unconditionally. -/
def urlencode (t : List Nat) : String :=
  String.mk ((t.map (fun b => '%' :: hex_byte b)).flatten)

/-! ## UTF-8 validity and the display projection

`interperet_value` converts a decoded bencode value to a `serde_json::Value`
for display, calling `String::from_utf8(..).unwrap()` on every byte string
and on every dictionary key.  `utf8_valid` is byte-level UTF-8 validity per
RFC 3629 (what `String::from_utf8` checks); `RunResult.panic` models the
process abort `unwrap` causes on an `Err`. -/

/-- Continuation byte test (`0x80..=0xBF`). -/
def utf8_cont (b : Nat) : Bool := 128 ≤ b && b ≤ 191

/-- RFC 3629 UTF-8 validity of a byte sequence, the predicate behind Rust's
`String::from_utf8`. -/
def utf8_valid : List Nat → Bool
  | [] => true
  | b :: r =>
    if b ≤ 127 then utf8_valid r
    else if 194 ≤ b && b ≤ 223 then
      match r with
      | c1 :: r2 => utf8_cont c1 && utf8_valid r2
      | [] => false
    else if 224 ≤ b && b ≤ 239 then
      match r with
      | c1 :: c2 :: r2 =>
          (if b = 224 then decide (160 ≤ c1 && c1 ≤ 191)
           else if b = 237 then decide (128 ≤ c1 && c1 ≤ 159)
           else utf8_cont c1) && utf8_cont c2 && utf8_valid r2
      | _ => false
    else if 240 ≤ b && b ≤ 244 then
      match r with
      | c1 :: c2 :: c3 :: r2 =>
          (if b = 240 then decide (144 ≤ c1 && c1 ≤ 191)
           else if b = 244 then decide (128 ≤ c1 && c1 ≤ 143)
           else utf8_cont c1) && utf8_cont c2 && utf8_cont c3 && utf8_valid r2
      | _ => false
    else false

/-- Result of running a Rust computation that may panic: `panic` models a
process abort (`unwrap`), distinct from a typed error value. -/
inductive RunResult (α : Type) where
  | ok : α → RunResult α
  | panic : String → RunResult α
deriving DecidableEq

/-- Shape of `serde_json::Value` as used by the display projection.  String
payloads are kept as their (validated) UTF-8 bytes. -/
inductive Json where
  | num : Int → Json
  | str : List Nat → Json
  | arr : List Json → Json
  | obj : List (List Nat × Json) → Json

/-- Panic message of `String::from_utf8(..).unwrap()` on invalid bytes. -/
def utf8_panic_msg : String := "called Result::unwrap on an Err value: FromUtf8Error"

mutual
/-- Rust `interperet_value`: bencode value to `serde_json::Value`.  Byte
strings and dictionary keys go through `String::from_utf8(..).unwrap()`,
which panics (aborts the process) when the bytes are not valid UTF-8. -/
def interperet_value : Value → RunResult Json
  | .int n => .ok (.num n)
  | .bytes b => if utf8_valid b then .ok (.str b) else .panic utf8_panic_msg
  | .list l =>
      match interperet_list l with
      | .ok js => .ok (.arr js)
      | .panic m => .panic m
  | .dict d =>
      match interperet_entries d with
      | .ok es => .ok (.obj es)
      | .panic m => .panic m

/-- Elementwise projection of a bencode list, stopping at the first panic. -/
def interperet_list : List Value → RunResult (List Json)
  | [] => .ok []
  | v :: r =>
      match interperet_value v with
      | .panic m => .panic m
      | .ok j =>
          match interperet_list r with
          | .panic m => .panic m
          | .ok js => .ok (j :: js)

/-- Entrywise projection of a bencode dictionary.  As in the Rust code, the
key's `unwrap` runs before the value is projected. -/
def interperet_entries : List (List Nat × Value) → RunResult (List (List Nat × Json))
  | [] => .ok []
  | (k, v) :: r =>
      if utf8_valid k then
        match interperet_value v with
        | .panic m => .panic m
        | .ok j =>
            match interperet_entries r with
            | .panic m => .panic m
            | .ok es => .ok ((k, j) :: es)
      else .panic utf8_panic_msg
end

/-! ## Bencode parser

Stream parser for the bencode grammar as `serde_bencode` reads it: `i…e`
integers (bytes read up to the terminating `e`, parsed with
`str::parse::<i64>` — optional sign, leading zeros accepted, failure on
values outside `i64`), length-prefixed byte strings, `l…e` lists and `d…e`
dictionaries with byte-string keys, entries kept in input order.  The `fuel` argument only bounds nesting
depth (the Rust parser recurses on the input); `input.length + 1` always
suffices. -/

/-- Bytes before the next `e` (byte 101) terminator, and the remainder after
it; `none` when the terminator is missing (truncated input). -/
def take_until_e : List Nat → Option (List Nat × List Nat)
  | [] => none
  | b :: r =>
      if b = 101 then some ([], r)
      else match take_until_e r with
        | none => none
        | some (xs, rest) => some (b :: xs, rest)

/-- Longest digit prefix and the remainder. -/
def take_digits : List Nat → List Nat × List Nat
  | [] => ([], [])
  | b :: r =>
      if is_digit b then
        match take_digits r with
        | (ds, rest) => (b :: ds, rest)
      else ([], b :: r)

/-- Decimal integer from ASCII bytes, as `serde_bencode` parses a bencode
integer token: the bytes go through Rust's `str::parse::<i64>()`, so there is
an optional leading `-`, at least one digit, all bytes digits (leading zeros
accepted), and the value must fit in `i64` — `none` (a parse error in Rust)
on overflow past `i64::MAX = 2^63 - 1` or below `i64::MIN = -2^63`. -/
def int_from_dec : List Nat → Option Int
  | [] => none
  | b :: r =>
      if b = 45 then
        if r ≠ [] ∧ r.all is_digit ∧ dec_value r ≤ 9223372036854775808 then
          some (-(dec_value r : Int))
        else none
      else
        if (b :: r).all is_digit ∧ dec_value (b :: r) ≤ 9223372036854775807 then
          some (dec_value (b :: r) : Int)
        else none

/-- Byte-string production `<len>:<bytes>`: decimal length, colon (58), then
exactly that many raw bytes; `none` on a missing colon, missing length or
truncated payload. -/
def parse_str (input : List Nat) : Option (List Nat × List Nat) :=
  match take_digits input with
  | ([], _) => none
  | (ds, rest) =>
      match rest with
      | 58 :: r =>
          if r.length < dec_value ds then none
          else some (r.take (dec_value ds), r.drop (dec_value ds))
      | _ => none

mutual
/-- One bencode value off the front of the stream, with the unconsumed
tail. -/
def parse_value : Nat → List Nat → Option (Value × List Nat)
  | 0, _ => none
  | _ + 1, [] => none
  | fuel + 1, b :: r =>
      if b = 105 then
        match take_until_e r with
        | none => none
        | some (body, rest) =>
            match int_from_dec body with
            | none => none
            | some n => some (.int n, rest)
      else if b = 108 then
        match parse_items fuel r with
        | none => none
        | some (l, rest) => some (.list l, rest)
      else if b = 100 then
        match parse_pairs fuel r with
        | none => none
        | some (d, rest) => some (.dict d, rest)
      else
        match parse_str (b :: r) with
        | none => none
        | some (s, rest) => some (.bytes s, rest)

/-- List elements up to the terminating `e`. -/
def parse_items : Nat → List Nat → Option (List Value × List Nat)
  | 0, _ => none
  | _ + 1, [] => none
  | fuel + 1, b :: r =>
      if b = 101 then some ([], r)
      else
        match parse_value fuel (b :: r) with
        | none => none
        | some (v, rest) =>
            match parse_items fuel rest with
            | none => none
            | some (l, rest2) => some (v :: l, rest2)

/-- Dictionary entries (byte-string key, then value) up to the terminating
`e`, in input order. -/
def parse_pairs : Nat → List Nat → Option (List (List Nat × Value) × List Nat)
  | 0, _ => none
  | _ + 1, [] => none
  | fuel + 1, b :: r =>
      if b = 101 then some ([], r)
      else
        match parse_str (b :: r) with
        | none => none
        | some (k, rest) =>
            match parse_value fuel rest with
            | none => none
            | some (v, rest2) =>
                match parse_pairs fuel rest2 with
                | none => none
                | some (d, rest3) => some ((k, v) :: d, rest3)
end

/-! ## Structured decoding of `Info`

`serde_bencode::from_bytes::<Info>` parses the stream and fills the struct's
fields from the dictionary entries by key: `u64` fields from a nonnegative
parsed `i64` (the parser itself rejects integers outside `i64`), `name` from
a byte string, `pieces` through `HashesVisitor`.  A missing key is a schema error naming the field.  (serde
processes entries in stream order; on dictionaries without duplicate keys —
all that the claims exercise — that is equivalent to the per-field lookup
used here.) -/

/-- First value bound to a key in a parsed dictionary. -/
def lookup_field (k : List Nat) : List (List Nat × Value) → Except String Value
  | [] => .error "missing field"
  | (k2, v) :: r => if k2 = k then .ok v else lookup_field k r

/-- A `u64` field from a parsed bencode integer.  `serde_bencode` hands the
parsed `i64` to the visitor via `visit_i64`, and serde's `u64` visitor
converts with `u64::try_from`, failing on negative values; values above
`i64::MAX` never reach this point because the integer parse itself fails. -/
def as_u64 : Value → Except String Nat
  | .int n =>
      if 0 ≤ n then .ok n.toNat
      else .error "invalid value: negative integer, expected u64"
  | _ => .error "invalid type: expected integer"

/-- A byte-string field from a bencode value. -/
def as_bytes : Value → Except String (List Nat)
  | .bytes s => .ok s
  | _ => .error "invalid type: expected byte string"

/-- Structured `Info` from a parsed bencode value: the serde-generated
field-by-field extraction, with the monadic error propagation (`?` in Rust)
written out as explicit matches. -/
def info_from_entries (d : List (List Nat × Value)) : Except String Info :=
  Except.bind (lookup_field (key_bytes "length") d) (fun lv =>
  Except.bind (as_u64 lv) (fun len =>
  Except.bind (lookup_field (key_bytes "name") d) (fun nv =>
  Except.bind (as_bytes nv) (fun nm =>
  Except.bind (lookup_field (key_bytes "piece length") d) (fun pv =>
  Except.bind (as_u64 pv) (fun pl =>
  Except.bind (lookup_field (key_bytes "pieces") d) (fun hv =>
  Except.bind (as_bytes hv) (fun hb =>
  Except.bind (hashes_visit_bytes hb) (fun hs =>
  Except.ok ⟨len, nm, pl, hs⟩)))))))))

/-- Structured `Info` from a parsed bencode value. -/
def info_from_value : Value → Except String Info
  | .dict d => info_from_entries d
  | _ => .error "invalid type: expected dictionary"

/-- Rust `serde_bencode::from_bytes::<Info>` over raw bytes. -/
def decode_info (input : List Nat) : Except String Info :=
  match parse_value (input.length + 1) input with
  | none => .error "malformed bencode"
  | some (v, _) => info_from_value v

/-! # Supporting lemmas -/

theorem length_be_bytes (k n : Nat) : (be_bytes k n).length = k := by
  induction k generalizing n with
  | zero => rfl
  | succ k ih => simp [be_bytes, ih]

theorem mem_be_bytes_lt {k n b : Nat} (h : b ∈ be_bytes k n) : b < 256 := by
  induction k generalizing n with
  | zero => simp [be_bytes] at h
  | succ k ih =>
      simp only [be_bytes, List.mem_append, List.mem_singleton] at h
      rcases h with h | h
      · exact ih h
      · subst h
        exact Nat.mod_lt _ (by omega)

theorem sha1_length (m : List Nat) : (sha1 m).length = 20 := by
  simp [sha1, length_be_bytes]

theorem sha1_bytes_lt (m : List Nat) : ∀ b ∈ sha1 m, b < 256 := by
  intro b hb
  simp only [sha1, List.mem_append] at hb
  rcases hb with ((((h | h) | h) | h) | h) <;> exact mem_be_bytes_lt h

theorem chunks_exact_nil (w : Nat) : chunks_exact w [] = [] := by
  rw [chunks_exact]
  simp

theorem chunks_exact_cons (w : Nat) (l : List Nat) (hw : 0 < w) (hl : w ≤ l.length) :
    chunks_exact w l = l.take w :: chunks_exact w (l.drop w) := by
  rw [chunks_exact, if_neg (by omega)]

/-- On input whose length the width divides, `chunks_exact` splits the input
exactly: the chunks concatenate back to the input (so they are in input
order and nothing is dropped), there are `length / w` of them, and each has
width `w`. -/
theorem chunks_exact_spec (w : Nat) (hw : 0 < w) : ∀ v : List Nat, v.length % w = 0 →
    (chunks_exact w v).flatten = v ∧
    (chunks_exact w v).length = v.length / w ∧
    ∀ c ∈ chunks_exact w v, c.length = w := by
  refine chunks_exact.induct w
    (fun v => v.length % w = 0 →
      (chunks_exact w v).flatten = v ∧
      (chunks_exact w v).length = v.length / w ∧
      ∀ c ∈ chunks_exact w v, c.length = w) ?_ ?_
  · intro v h hd
    have h0 : v.length = 0 := by
      rcases h with h | h
      · omega
      · exact Nat.eq_zero_of_dvd_of_lt (Nat.dvd_of_mod_eq_zero hd) h
    have hnil : v = [] := List.length_eq_zero.mp h0
    subst hnil
    rw [chunks_exact_nil]
    simp
  · intro v h ih hd
    have hle : w ≤ v.length := by
      rcases Nat.lt_or_ge v.length w with hlt | hge
      · exact absurd (Or.inr hlt) h
      · exact hge
    obtain ⟨k, hk⟩ := Nat.dvd_of_mod_eq_zero hd
    obtain ⟨k2, rfl⟩ : ∃ k2, k = k2 + 1 := by
      refine ⟨k - 1, ?_⟩
      rcases Nat.eq_zero_or_pos k with rfl | hpos
      · rw [Nat.mul_zero] at hk
        omega
      · omega
    have hksucc : v.length = w * k2 + w := by
      rw [hk, Nat.mul_succ]
    have hdroplen : (v.drop w).length = w * k2 := by
      simp only [List.length_drop]
      omega
    have hdmod : (v.drop w).length % w = 0 := by
      rw [hdroplen]
      exact Nat.mul_mod_right w k2
    obtain ⟨ihf, ihl, ihm⟩ := ih hdmod
    rw [chunks_exact_cons w v hw hle]
    refine ⟨?_, ?_, ?_⟩
    · simp [ihf]
    · simp only [List.length_cons, ihl, hdroplen]
      rw [hk, Nat.mul_div_cancel_left _ hw, Nat.mul_div_cancel_left _ hw]
    · intro c hc
      rcases List.mem_cons.mp hc with rfl | hc2
      · simp only [List.length_take]
        omega
      · exact ihm c hc2

/-- The source decoding of a 6-byte chunk agrees with the specification
reading of a compact peer record, once the chunk really is 6 bytes of `u8`
range: the `u16` reduction mod `2^16` never fires. -/
theorem peer_of_chunk_eq_spec (c : List Nat) (h6 : c.length = 6)
    (hb : ∀ b ∈ c, b < 256) : peer_of_chunk c = peer_spec c := by
  rcases c with _ | ⟨b0, _ | ⟨b1, _ | ⟨b2, _ | ⟨b3, _ | ⟨b4, _ | ⟨b5, rest⟩⟩⟩⟩⟩⟩ <;>
    simp only [List.length_cons, List.length_nil] at h6 <;> try omega
  have hrest : rest = [] := List.length_eq_zero.mp (by omega)
  subst hrest
  have hb4 : b4 < 256 := hb b4 (by simp)
  have hb5 : b5 < 256 := hb b5 (by simp)
  simp only [peer_of_chunk, peer_spec, u16_from_be, List.getD_cons_zero,
    List.getD_cons_succ, Peer.mk.injEq]
  refine ⟨by trivial, ?_⟩
  rw [Nat.mod_eq_of_lt (by omega)]
  omega

/-! # Claim theorems -/

/-- Claim C1: for every `Torrent` value `t`, `info_hash t` is exactly the
20-byte SHA-1 digest of the canonical bencode encoding of `t`'s `Info` record
alone (the whole-torrent encoding never enters the hash), returned as raw
bytes — 20 entries, each a byte value below 256 — not as hex text. -/
theorem info_hash_is_sha1_of_info (t : Torrent) :
    t.info_hash = sha1 (encode_info t.info) ∧
    t.info_hash.length = 20 ∧
    ∀ b ∈ t.info_hash, b < 256 :=
  ⟨rfl, sha1_length _, sha1_bytes_lt _⟩

/-- Claim C1 witness: the three conjuncts at a concrete torrent. -/
theorem info_hash_is_sha1_of_info_witness :
    (Torrent.mk "http://t.example/announce" ⟨1, [97], 1, []⟩).info_hash
      = sha1 (encode_info ⟨1, [97], 1, []⟩) ∧
    (Torrent.mk "http://t.example/announce" ⟨1, [97], 1, []⟩).info_hash.length = 20 ∧
    ∀ b ∈ (Torrent.mk "http://t.example/announce" ⟨1, [97], 1, []⟩).info_hash, b < 256 :=
  info_hash_is_sha1_of_info (Torrent.mk "http://t.example/announce" ⟨1, [97], 1, []⟩)

/-- Claim C2: the bencode encoding used for hashing emits the `Info`
dictionary keys in ascending byte-lexicographic order — `length`, `name`,
`piece length`, `pieces` — and the encoder is byte-exact: two `Info` values
that agree field-for-field encode to identical byte sequences. -/
theorem info_encoding_canonical (i : Info) :
    encode_info i = encode_value (.dict (info_entries i)) ∧
    (info_entries i).map Prod.fst =
      [key_bytes "length", key_bytes "name", key_bytes "piece length", key_bytes "pieces"] ∧
    List.Chain' (fun a b => lex_lt a b = true) ((info_entries i).map Prod.fst) ∧
    ∀ i2 : Info, i.length = i2.length → i.name = i2.name →
      i.piece_length = i2.piece_length → i.pieces = i2.pieces →
      encode_info i = encode_info i2 := by
  refine ⟨rfl, rfl, ?_, ?_⟩
  · show List.Chain' _ [key_bytes "length", key_bytes "name",
      key_bytes "piece length", key_bytes "pieces"]
    simp only [List.chain'_cons, List.chain'_singleton, and_true]
    refine ⟨?_, ?_, ?_⟩ <;> decide
  · intro i2 h1 h2 h3 h4
    cases i; cases i2
    simp_all

/-- Claim C2 witness: byte-exactness instantiated at a concrete `Info`. -/
theorem info_encoding_canonical_witness :
    encode_info ⟨5, [97, 98], 3, []⟩ = encode_value (.dict (info_entries ⟨5, [97, 98], 3, []⟩)) ∧
    encode_info ⟨5, [97, 98], 3, []⟩ = encode_info ⟨5, [97, 98], 3, []⟩ :=
  ⟨(info_encoding_canonical ⟨5, [97, 98], 3, []⟩).1,
   (info_encoding_canonical ⟨5, [97, 98], 3, []⟩).2.2.2 ⟨5, [97, 98], 3, []⟩ rfl rfl rfl rfl⟩

/-- Claim C8: a tracker response `peers` field that is not a byte string
(integer, list, or the non-compact dictionary-of-peers format) fails to
deserialize, with an error naming the expected compact format, and is never
silently misparsed into a peer list. -/
theorem peers_nonbytes_error (v : Value) (h : ∀ b : List Nat, v ≠ .bytes b) :
    peers_deserialize v = .error (invalid_type (value_kind v) peers_expecting) ∧
    ∀ ps, peers_deserialize v ≠ .ok ps := by
  cases v with
  | int n => exact ⟨rfl, by simp [peers_deserialize]⟩
  | bytes b => exact absurd rfl (h b)
  | list l => exact ⟨rfl, by simp [peers_deserialize]⟩
  | dict d => exact ⟨rfl, by simp [peers_deserialize]⟩

/-- Claim C8 witness: the dictionary-of-peers format at a concrete value. -/
theorem peers_nonbytes_error_witness :
    peers_deserialize (.dict []) =
      .error (invalid_type (value_kind (.dict [])) peers_expecting) ∧
    ∀ ps, peers_deserialize (.dict []) ≠ .ok ps :=
  peers_nonbytes_error (.dict []) (fun _ h => Value.noConfusion h)

/-- Claim C9: an empty `pieces` byte string and an empty `peers` byte string
each decode successfully to an empty sequence, not to an error. -/
theorem empty_decodes_ok :
    hashes_visit_bytes [] = .ok [] ∧ peers_visit_bytes [] = .ok [] := by
  rw [hashes_visit_bytes, peers_visit_bytes]
  simp [chunks_exact_nil]

/-- Claim C10: the session state built for a tracker announce always carries
the fixed 20-byte ASCII peer id `00112233445566778899`, port 6881, zero
uploaded and downloaded counters, and `left` equal to the torrent's
`info.length`; the peer id is a constant, identical across sessions. -/
theorem client_new_spec (t : Torrent) :
    Client.new t = ⟨"00112233445566778899", 6881, 0, 0, t.info.length, t⟩ ∧
    (Client.new t).peer_id.length = 20 ∧
    (Client.new t).tracker_request =
      ⟨"00112233445566778899", 6881, 0, 0, t.info.length, 1⟩ ∧
    ∀ t2 : Torrent, (Client.new t).peer_id = (Client.new t2).peer_id := by
  refine ⟨rfl, ?_, rfl, fun _ => rfl⟩
  show ("00112233445566778899" : String).length = 20
  decide

/-- Claim C7 counterexample: on a byte string that is not valid UTF-8 the
display projection panics — `String::from_utf8(..).unwrap()` aborts the
process — rather than returning a typed `InvalidText` error to the caller. -/
theorem interperet_value_panic_cex :
    interperet_value (.bytes [255]) = .panic utf8_panic_msg := by
  have h : utf8_valid [255] = false := rfl
  simp [interperet_value, h]

/-- Claim C7 amended: for every byte string whose bytes are not valid UTF-8,
the display projection panics (a process abort, Rust `unwrap`), and a
dictionary whose key is not valid UTF-8 panics the same way; no typed error
is returned. -/
theorem interperet_value_panics (b : List Nat) (h : utf8_valid b = false) :
    interperet_value (.bytes b) = .panic utf8_panic_msg ∧
    interperet_value (.dict [(b, .int 0)]) = .panic utf8_panic_msg := by
  constructor
  · simp [interperet_value, h]
  · simp [interperet_value, interperet_entries, h]

/-- Claim C7 witness: the amended statement at the concrete byte `0xFF`. -/
theorem interperet_value_panics_witness :
    interperet_value (.bytes [255]) = .panic utf8_panic_msg ∧
    interperet_value (.dict [([255], .int 0)]) = .panic utf8_panic_msg :=
  interperet_value_panics [255] (by rfl)

/-- Claim C3: when the input length is a multiple of the chunk width (20 for
piece hashes, 6 for compact peers), decoding succeeds with exactly
`length / width` fixed-width chunks in input order (their concatenation is
the input, so no partial output exists); when it is not a multiple, decoding
returns the length decode error — never a partial result and never a
panic. -/
theorem chunk_decoding_spec (v : List Nat) :
    (v.length % 20 = 0 →
       hashes_visit_bytes v = .ok (chunks_exact 20 v) ∧
       (chunks_exact 20 v).length = v.length / 20 ∧
       (chunks_exact 20 v).flatten = v ∧
       ∀ c ∈ chunks_exact 20 v, c.length = 20) ∧
    (v.length % 20 ≠ 0 →
       hashes_visit_bytes v = .error ("length is " ++ Nat.repr v.length)) ∧
    (v.length % 6 = 0 →
       peers_visit_bytes v = .ok ((chunks_exact 6 v).map peer_of_chunk) ∧
       ((chunks_exact 6 v).map peer_of_chunk).length = v.length / 6) ∧
    (v.length % 6 ≠ 0 →
       peers_visit_bytes v = .error ("length is " ++ Nat.repr v.length)) := by
  refine ⟨?_, ?_, ?_, ?_⟩
  · intro h20
    obtain ⟨hf, hl, hm⟩ := chunks_exact_spec 20 (by omega) v h20
    exact ⟨by rw [hashes_visit_bytes, if_neg (by omega)], hl, hf, hm⟩
  · intro h20
    rw [hashes_visit_bytes, if_pos h20]
  · intro h6
    obtain ⟨hf, hl, hm⟩ := chunks_exact_spec 6 (by omega) v h6
    refine ⟨by rw [peers_visit_bytes, if_neg (by omega)], ?_⟩
    rw [List.length_map, hl]
  · intro h6
    rw [peers_visit_bytes, if_pos h6]

/-- Claim C3 witness: a 60-byte input decodes into 3 hash chunks, and a
7-byte input (Scenario D) fails with the length error. -/
theorem chunk_decoding_spec_witness :
    hashes_visit_bytes (List.replicate 60 0) = .ok (chunks_exact 20 (List.replicate 60 0)) ∧
    (chunks_exact 20 (List.replicate 60 0)).length = 3 ∧
    peers_visit_bytes [1, 2, 3, 4, 5, 6, 7] = .error ("length is " ++ Nat.repr 7) :=
  ⟨((chunk_decoding_spec (List.replicate 60 0)).1 (by simp)).1,
   ((chunk_decoding_spec (List.replicate 60 0)).1 (by simp)).2.1.trans (by simp),
   (chunk_decoding_spec [1, 2, 3, 4, 5, 6, 7]).2.2.2 (by decide)⟩

/-- Claim C4: every 6-byte chunk of a compact peers byte string decodes to a
`PeerAddress` whose `ip` is the dotted-decimal rendering of bytes `0..4` and
whose `port` is bytes `4..6` read as a big-endian unsigned 16-bit integer —
i.e. the source decoder agrees with the specification reading chunk by
chunk. -/
theorem compact_peer_decoding (v : List Nat) (hb : ∀ b ∈ v, b < 256)
    (h6 : v.length % 6 = 0) :
    peers_visit_bytes v = .ok ((chunks_exact 6 v).map peer_spec) := by
  obtain ⟨hf, hl, hm⟩ := chunks_exact_spec 6 (by omega) v h6
  rw [peers_visit_bytes, if_neg (by omega)]
  congr 1
  refine List.map_congr_left ?_
  intro c hc
  refine peer_of_chunk_eq_spec c (hm c hc) ?_
  intro b hbc
  exact hb b (by rw [← hf]; exact List.mem_flatten.mpr ⟨c, hc, hbc⟩)

/-- Claim C4 witness: the two-peer tracker payload of Scenario C, with ports
and dotted quads reconstructed (`26 * 256 + 225 = 6881`). -/
theorem compact_peer_decoding_witness :
    peers_visit_bytes [10, 0, 0, 1, 26, 225, 192, 168, 1, 2, 0, 80] =
      .ok ((chunks_exact 6 [10, 0, 0, 1, 26, 225, 192, 168, 1, 2, 0, 80]).map peer_spec) :=
  compact_peer_decoding [10, 0, 0, 1, 26, 225, 192, 168, 1, 2, 0, 80]
    (by decide) (by decide)

theorem urlencode_groups_length (t : List Nat) :
    ((t.map (fun b => '%' :: hex_byte b)).flatten).length = 3 * t.length := by
  induction t with
  | nil => rfl
  | cons b r ih =>
      have h2 : (hex_byte b).length = 2 := rfl
      simp only [List.map_cons, List.flatten_cons, List.length_append, ih,
        List.length_cons, h2]
      omega

theorem hex_digit_good :
    ∀ n, n < 16 → ((hex_digit n).isDigit || ('a' ≤ hex_digit n && hex_digit n ≤ 'f')) = true := by
  decide

/-- Claim C5: `urlencode` renders a 20-byte info hash as `%XX` per byte,
unconditionally — the output is exactly 60 characters, the concatenation of
one `%`-plus-two-hex-digits group per byte, with both digits hexadecimal
(so bytes below `0x10` get their leading zero and printable bytes are still
escaped). -/
theorem urlencode_spec (t : List Nat) (h20 : t.length = 20) (hb : ∀ b ∈ t, b < 256) :
    (urlencode t).length = 60 ∧
    (urlencode t).data = (t.map (fun b => '%' :: hex_byte b)).flatten ∧
    ∀ b ∈ t, ('%' :: hex_byte b).length = 3 ∧
      (hex_byte b).all (fun ch => ch.isDigit || ('a' ≤ ch && ch ≤ 'f')) = true := by
  refine ⟨?_, rfl, ?_⟩
  · have hlen : (urlencode t).length = ((t.map (fun b => '%' :: hex_byte b)).flatten).length := rfl
    rw [hlen, urlencode_groups_length, h20]
  · intro b hbt
    have hblt : b < 256 := hb b hbt
    have hdiv : b / 16 < 16 := by omega
    have hmod : b % 16 < 16 := by omega
    refine ⟨rfl, ?_⟩
    simp only [hex_byte, List.all_cons, List.all_nil, Bool.and_true]
    rw [hex_digit_good _ hdiv, hex_digit_good _ hmod]
    rfl

/-- Claim C5 witness: a hash of 20 zero bytes percent-encodes to 60
characters of valid `%XX` groups. -/
theorem urlencode_spec_witness :
    (urlencode (List.replicate 20 0)).length = 60 ∧
    (urlencode (List.replicate 20 0)).data =
      ((List.replicate 20 0).map (fun b => '%' :: hex_byte b)).flatten ∧
    ∀ b ∈ List.replicate 20 0, ('%' :: hex_byte b).length = 3 ∧
      (hex_byte b).all (fun ch => ch.isDigit || ('a' ≤ ch && ch ≤ 'f')) = true :=
  urlencode_spec (List.replicate 20 0) (by decide) (by decide)

/-! # Round-trip lemmas for the bencode parser -/

theorem nat_to_dec_ne_nil (n : Nat) : nat_to_dec n ≠ [] := by
  rw [nat_to_dec]
  split
  · simp
  · next h =>
      simp only [ne_eq, List.map_eq_nil_iff, List.reverse_eq_nil_iff]
      exact Nat.digits_ne_nil_iff_ne_zero.mpr h

theorem nat_to_dec_digits (n : Nat) : ∀ b ∈ nat_to_dec n, is_digit b = true := by
  intro b hb
  rw [nat_to_dec] at hb
  split at hb
  · simp only [List.mem_singleton] at hb
    subst hb
    rfl
  · simp only [List.mem_map, List.mem_reverse] at hb
    obtain ⟨d, hd, rfl⟩ := hb
    have hlt : d < 10 := Nat.digits_lt_base (by norm_num) hd
    simp only [is_digit, Bool.and_eq_true, decide_eq_true_eq]
    omega

theorem nat_to_dec_bounds (n : Nat) : ∀ b ∈ nat_to_dec n, 48 ≤ b ∧ b ≤ 57 := by
  intro b hb
  have := nat_to_dec_digits n b hb
  simp only [is_digit, Bool.and_eq_true, decide_eq_true_eq] at this
  exact this

theorem foldr_base10 (L : List Nat) :
    L.foldr (fun d a => a * 10 + d) 0 = Nat.ofDigits 10 L := by
  induction L with
  | nil => rfl
  | cons d L ih =>
      simp only [List.foldr_cons, ih, Nat.ofDigits_cons]
      ring

theorem dec_value_nat_to_dec (n : Nat) : dec_value (nat_to_dec n) = n := by
  rw [nat_to_dec]
  split
  · next h => subst h; rfl
  · rw [dec_value, List.foldl_map]
    have hfun : (fun (a : Nat) (d : Nat) => a * 10 + (d + 48 - 48)) =
        (fun (a : Nat) (d : Nat) => a * 10 + d) := by
      funext a d
      omega
    rw [hfun, List.foldl_reverse]
    show (Nat.digits 10 n).foldr (fun d a => a * 10 + d) 0 = n
    rw [foldr_base10, Nat.ofDigits_digits]

theorem take_digits_append (ds : List Nat) (b0 : Nat) (r : List Nat)
    (hds : ∀ b ∈ ds, is_digit b = true) (hb0 : is_digit b0 = false) :
    take_digits (ds ++ b0 :: r) = (ds, b0 :: r) := by
  induction ds with
  | nil => simp [take_digits, hb0]
  | cons d tl ih =>
      have hd : is_digit d = true := hds d (by simp)
      simp only [List.cons_append, take_digits, hd, if_true, List.append_eq]
      rw [ih (fun b hb => hds b (by simp [hb]))]

theorem take_until_e_append (l : List Nat) (rest : List Nat)
    (hl : ∀ b ∈ l, b ≠ 101) :
    take_until_e (l ++ 101 :: rest) = some (l, rest) := by
  induction l with
  | nil => simp [take_until_e]
  | cons b tl ih =>
      have hb : b ≠ 101 := hl b (by simp)
      simp only [List.cons_append, take_until_e, hb, if_false, if_neg hb, List.append_eq]
      rw [ih (fun b2 hb2 => hl b2 (by simp [hb2]))]

theorem parse_str_enc (s rest : List Nat) :
    parse_str (enc_str s ++ rest) = some (s, rest) := by
  obtain ⟨d, ds, hd⟩ := List.exists_cons_of_ne_nil (nat_to_dec_ne_nil s.length)
  have hshape : enc_str s ++ rest = nat_to_dec s.length ++ 58 :: (s ++ rest) := by
    simp [enc_str]
  have htd : take_digits (nat_to_dec s.length ++ 58 :: (s ++ rest)) =
      (nat_to_dec s.length, 58 :: (s ++ rest)) :=
    take_digits_append _ _ _ (nat_to_dec_digits _) (by decide)
  rw [hshape, parse_str, htd, hd]
  have hdv : dec_value (d :: ds) = s.length := by
    rw [← hd, dec_value_nat_to_dec]
  simp only [hdv]
  rw [if_neg (by simp)]
  rw [List.take_left, List.drop_left]

theorem int_from_dec_nat (n : Nat) (hle : n ≤ 9223372036854775807) :
    int_from_dec (nat_to_dec n) = some ((n : Int)) := by
  obtain ⟨d, ds, hd⟩ := List.exists_cons_of_ne_nil (nat_to_dec_ne_nil n)
  have hb := nat_to_dec_bounds n d (by rw [hd]; simp)
  have hall : (nat_to_dec n).all is_digit = true :=
    List.all_eq_true.mpr (fun b hb2 => nat_to_dec_digits n b hb2)
  rw [hd] at hall
  have hdv : dec_value (d :: ds) = n := by
    rw [← hd, dec_value_nat_to_dec]
  rw [hd, int_from_dec, if_neg (by omega), if_pos ⟨hall, by rw [hdv]; exact hle⟩, hdv]

theorem int_from_dec_nat_overflow (n : Nat) (hgt : 9223372036854775807 < n) :
    int_from_dec (nat_to_dec n) = none := by
  obtain ⟨d, ds, hd⟩ := List.exists_cons_of_ne_nil (nat_to_dec_ne_nil n)
  have hb := nat_to_dec_bounds n d (by rw [hd]; simp)
  have hdv : dec_value (d :: ds) = n := by
    rw [← hd, dec_value_nat_to_dec]
  rw [hd, int_from_dec, if_neg (by omega),
    if_neg (by rw [hdv]; intro hand; exact absurd hand.2 (by omega))]

theorem parse_value_int (fuel n : Nat) (rest : List Nat)
    (hle : n ≤ 9223372036854775807) :
    parse_value (fuel + 1) (encode_value (.int (n : Int)) ++ rest) =
      some (.int (n : Int), rest) := by
  have hint : int_to_dec (n : Int) = nat_to_dec n := by
    rw [int_to_dec, if_neg (by omega)]
    rfl
  have hshape : encode_value (.int (n : Int)) ++ rest = 105 :: (nat_to_dec n ++ 101 :: rest) := by
    simp [encode_value, hint]
  rw [hshape]
  simp only [parse_value, if_pos rfl]
  rw [take_until_e_append _ _ (fun b hb => by have := nat_to_dec_bounds n b hb; omega)]
  simp [int_from_dec_nat n hle]

/-- A bencode integer token whose value exceeds `i64::MAX` fails to parse,
as `str::parse::<i64>` overflows in the program, for every fuel. -/
theorem parse_value_int_overflow (fuel n : Nat) (rest : List Nat)
    (hgt : 9223372036854775807 < n) :
    parse_value fuel (encode_value (.int (n : Int)) ++ rest) = none := by
  cases fuel with
  | zero => rfl
  | succ f =>
      have hint : int_to_dec (n : Int) = nat_to_dec n := by
        rw [int_to_dec, if_neg (by omega)]
        rfl
      have hshape : encode_value (.int (n : Int)) ++ rest =
          105 :: (nat_to_dec n ++ 101 :: rest) := by
        simp [encode_value, hint]
      rw [hshape]
      simp only [parse_value, if_pos rfl]
      rw [take_until_e_append _ _ (fun b hb => by have := nat_to_dec_bounds n b hb; omega)]
      simp [int_from_dec_nat_overflow n hgt]

theorem parse_value_bytes (fuel : Nat) (s rest : List Nat) :
    parse_value (fuel + 1) (encode_value (.bytes s) ++ rest) = some (.bytes s, rest) := by
  obtain ⟨d, ds, hd⟩ := List.exists_cons_of_ne_nil (nat_to_dec_ne_nil s.length)
  have hb := nat_to_dec_bounds s.length d (by rw [hd]; simp)
  have hshape2 : enc_str s ++ rest = d :: (ds ++ 58 :: (s ++ rest)) := by
    simp [enc_str, hd]
  have hshape : encode_value (.bytes s) ++ rest = d :: (ds ++ 58 :: (s ++ rest)) := by
    rw [show encode_value (.bytes s) = enc_str s from rfl, hshape2]
  have hps : parse_str (d :: (ds ++ 58 :: (s ++ rest))) = some (s, rest) := by
    rw [← hshape2]
    exact parse_str_enc s rest
  rw [hshape]
  simp only [parse_value]
  rw [if_neg (by omega), if_neg (by omega), if_neg (by omega)]
  simp only [hps]

theorem parse_pairs_enc :
    ∀ (entries : List (List Nat × Value)) (fuel : Nat) (rest : List Nat),
    (∀ e ∈ entries,
      (∃ n : Nat, e.2 = .int (n : Int) ∧ n ≤ 9223372036854775807) ∨
      (∃ s, e.2 = .bytes s)) →
    entries.length < fuel →
    parse_pairs fuel (encode_pairs entries ++ 101 :: rest) = some (entries, rest) := by
  intro entries
  induction entries with
  | nil =>
      intro fuel rest _ hfuel
      obtain ⟨f, rfl⟩ : ∃ f, fuel = f + 1 := ⟨fuel - 1, by omega⟩
      simp [encode_pairs, parse_pairs]
  | cons e tl ih =>
      intro fuel rest hsimple hfuel
      obtain ⟨k, v⟩ := e
      obtain ⟨f, rfl⟩ : ∃ f, fuel = f + 1 := ⟨fuel - 1, by omega⟩
      have hftl : tl.length < f := by
        simp only [List.length_cons] at hfuel
        omega
      obtain ⟨f2, rfl⟩ : ∃ f2, f = f2 + 1 := ⟨f - 1, by omega⟩
      obtain ⟨d, ds, hd⟩ := List.exists_cons_of_ne_nil (nat_to_dec_ne_nil k.length)
      have hb := nat_to_dec_bounds k.length d (by rw [hd]; simp)
      have hshape2 : enc_str k ++ (encode_value v ++ (encode_pairs tl ++ 101 :: rest)) =
          d :: (ds ++ 58 :: (k ++ (encode_value v ++ (encode_pairs tl ++ 101 :: rest)))) := by
        simp [enc_str, hd]
      have hshape : encode_pairs ((k, v) :: tl) ++ 101 :: rest =
          d :: (ds ++ 58 :: (k ++ (encode_value v ++ (encode_pairs tl ++ 101 :: rest)))) := by
        rw [← hshape2]
        simp [encode_pairs]
      have hps : parse_str (d :: (ds ++ 58 :: (k ++ (encode_value v ++ (encode_pairs tl ++ 101 :: rest))))) =
          some (k, encode_value v ++ (encode_pairs tl ++ 101 :: rest)) := by
        rw [← hshape2]
        exact parse_str_enc _ _
      have hpv : parse_value (f2 + 1) (encode_value v ++ (encode_pairs tl ++ 101 :: rest)) =
          some (v, encode_pairs tl ++ 101 :: rest) := by
        rcases hsimple (k, v) (by simp) with ⟨n, hn, hnle⟩ | ⟨s, hs⟩
        · dsimp only at hn
          rw [hn]
          exact parse_value_int _ _ _ hnle
        · dsimp only at hs
          rw [hs]
          exact parse_value_bytes _ _ _
      have hptl : parse_pairs (f2 + 1) (encode_pairs tl ++ 101 :: rest) = some (tl, rest) :=
        ih (f2 + 1) rest (fun e2 he2 => hsimple e2 (by simp [he2])) hftl
      rw [hshape]
      simp only [parse_pairs]
      rw [if_neg (by omega)]
      simp only [hps, hpv, hptl]

theorem enc_str_length_ge (s : List Nat) : 2 ≤ (enc_str s).length := by
  have hpos : 0 < (nat_to_dec s.length).length :=
    List.length_pos.mpr (nat_to_dec_ne_nil s.length)
  simp only [enc_str, List.length_append, List.length_cons]
  omega

theorem encode_pairs_length_ge :
    ∀ entries : List (List Nat × Value), entries.length ≤ (encode_pairs entries).length := by
  intro entries
  induction entries with
  | nil => simp [encode_pairs]
  | cons e tl ih =>
      obtain ⟨k, v⟩ := e
      have h2 := enc_str_length_ge k
      simp only [encode_pairs, List.length_append, List.length_cons]
      omega

theorem flatten_const_length (w : Nat) :
    ∀ ps : List (List Nat), (∀ p ∈ ps, p.length = w) → ps.flatten.length = w * ps.length := by
  intro ps
  induction ps with
  | nil => simp
  | cons p tl ih =>
      intro h
      have hp : p.length = w := h p (by simp)
      simp only [List.flatten_cons, List.length_append, List.length_cons,
        ih (fun q hq => h q (by simp [hq])), hp]
      ring

theorem chunks_exact_flatten (w : Nat) (hw : 0 < w) :
    ∀ ps : List (List Nat), (∀ p ∈ ps, p.length = w) → chunks_exact w ps.flatten = ps := by
  intro ps
  induction ps with
  | nil => intro _; simp [chunks_exact_nil]
  | cons p tl ih =>
      intro h
      have hp : p.length = w := h p (by simp)
      have hlen : w ≤ (p ++ tl.flatten).length := by
        simp only [List.length_append]
        omega
      simp only [List.flatten_cons]
      rw [chunks_exact_cons w _ hw hlen]
      congr 1
      · rw [← hp]
        exact List.take_left p tl.flatten
      · rw [show (p ++ tl.flatten).drop w = tl.flatten from by
          rw [← hp]; exact List.drop_left p tl.flatten]
        exact ih (fun q hq => h q (by simp [hq]))

theorem hashes_visit_flatten (ps : List (List Nat)) (h : ∀ p ∈ ps, p.length = 20) :
    hashes_visit_bytes ps.flatten = .ok ps := by
  have hlen := flatten_const_length 20 ps h
  rw [hashes_visit_bytes, if_neg (by rw [hlen]; simp [Nat.mul_mod_right]),
    chunks_exact_flatten 20 (by omega) ps h]

theorem info_from_value_ok (i : Info) (hwf : i.wf) :
    info_from_value (.dict (info_entries i)) = .ok i := by
  obtain ⟨-, -, h20⟩ := hwf
  have e1 : lookup_field (key_bytes "length") (info_entries i) = .ok (.int (i.length : Int)) := rfl
  have e2 : lookup_field (key_bytes "name") (info_entries i) = .ok (.bytes i.name) := rfl
  have e3 : lookup_field (key_bytes "piece length") (info_entries i) =
      .ok (.int (i.piece_length : Int)) := rfl
  have e4 : lookup_field (key_bytes "pieces") (info_entries i) =
      .ok (.bytes i.pieces.flatten) := rfl
  have u1 : as_u64 (.int (i.length : Int)) = .ok i.length := by
    simp only [as_u64]
    rw [if_pos (Int.natCast_nonneg _)]
    rfl
  have u3 : as_u64 (.int (i.piece_length : Int)) = .ok i.piece_length := by
    simp only [as_u64]
    rw [if_pos (Int.natCast_nonneg _)]
    rfl
  have hh := hashes_visit_flatten i.pieces h20
  have hbind : ∀ {α β : Type} (x : α) (f : α → Except String β),
      Except.bind (Except.ok x) f = f x := fun _ _ => rfl
  have hv : info_from_value (.dict (info_entries i)) = info_from_entries (info_entries i) := rfl
  rw [hv]
  simp only [info_from_entries, e1, hbind, u1, e2, as_bytes, e3, u3, e4, hh]

theorem encode_info_shape (i : Info) :
    encode_info i = 100 :: (encode_pairs (info_entries i) ++ 101 :: []) := by
  simp [encode_info, encode_value]

theorem encode_info_length_gt (i : Info) : 4 < (encode_info i).length := by
  have h1 : (encode_info i).length = (encode_pairs (info_entries i)).length + 2 := by
    simp [encode_info, encode_value]
  have h2 := encode_pairs_length_ge (info_entries i)
  have h4 : (info_entries i).length = 4 := rfl
  omega

theorem decode_info_encode (i : Info) (hwf : i.wf)
    (hl64 : i.length ≤ 9223372036854775807)
    (hp64 : i.piece_length ≤ 9223372036854775807) :
    decode_info (encode_info i) = .ok i := by
  have hsimple : ∀ e ∈ info_entries i,
      (∃ n : Nat, e.2 = .int (n : Int) ∧ n ≤ 9223372036854775807) ∨
      (∃ s, e.2 = .bytes s) := by
    intro e he
    simp only [info_entries, List.mem_cons, List.not_mem_nil, or_false] at he
    rcases he with rfl | rfl | rfl | rfl
    · exact Or.inl ⟨i.length, rfl, hl64⟩
    · exact Or.inr ⟨i.name, rfl⟩
    · exact Or.inl ⟨i.piece_length, rfl, hp64⟩
    · exact Or.inr ⟨i.pieces.flatten, rfl⟩
  have hfuel := encode_info_length_gt i
  have hpv : ∀ N, 4 < N → parse_value (N + 1) (encode_info i) =
      some (.dict (info_entries i), []) := by
    intro N hN
    rw [encode_info_shape]
    simp only [parse_value, if_true]
    rw [parse_pairs_enc (info_entries i) N [] hsimple
      (by have h4 : (info_entries i).length = 4 := rfl; omega)]
    norm_num
  simp only [decode_info, hpv _ hfuel]
  exact info_from_value_ok i hwf

/-- Decoding the canonical encoding of an `Info` whose `length` exceeds
`i64::MAX` fails: the program's integer parse (`str::parse::<i64>`)
overflows on the `length` token, so `serde_bencode::from_bytes` returns an
error. -/
theorem decode_info_overflow (i : Info) (hgt : 9223372036854775807 < i.length) :
    decode_info (encode_info i) = .error "malformed bencode" := by
  have hfuel := encode_info_length_gt i
  have hpairs : ∀ f, parse_pairs (f + 1) (encode_pairs (info_entries i) ++ 101 :: []) = none := by
    intro f
    obtain ⟨d, ds, hd⟩ :=
      List.exists_cons_of_ne_nil (nat_to_dec_ne_nil (key_bytes "length").length)
    have hb := nat_to_dec_bounds (key_bytes "length").length d (by rw [hd]; simp)
    have hentries : encode_pairs (info_entries i) ++ 101 :: [] =
        enc_str (key_bytes "length") ++ (encode_value (.int (i.length : Int)) ++
          (encode_pairs [(key_bytes "name", .bytes i.name),
                         (key_bytes "piece length", .int (i.piece_length : Int)),
                         (key_bytes "pieces", .bytes i.pieces.flatten)] ++ 101 :: [])) := by
      simp [info_entries, encode_pairs, List.append_assoc]
    have hshape2 : enc_str (key_bytes "length") ++ (encode_value (.int (i.length : Int)) ++
          (encode_pairs [(key_bytes "name", .bytes i.name),
                         (key_bytes "piece length", .int (i.piece_length : Int)),
                         (key_bytes "pieces", .bytes i.pieces.flatten)] ++ 101 :: [])) =
        d :: (ds ++ 58 :: (key_bytes "length" ++ (encode_value (.int (i.length : Int)) ++
          (encode_pairs [(key_bytes "name", .bytes i.name),
                         (key_bytes "piece length", .int (i.piece_length : Int)),
                         (key_bytes "pieces", .bytes i.pieces.flatten)] ++ 101 :: [])))) := by
      simp [enc_str, hd]
    have hps : parse_str (d :: (ds ++ 58 :: (key_bytes "length" ++
          (encode_value (.int (i.length : Int)) ++
            (encode_pairs [(key_bytes "name", .bytes i.name),
                           (key_bytes "piece length", .int (i.piece_length : Int)),
                           (key_bytes "pieces", .bytes i.pieces.flatten)] ++ 101 :: []))))) =
        some (key_bytes "length", encode_value (.int (i.length : Int)) ++
          (encode_pairs [(key_bytes "name", .bytes i.name),
                         (key_bytes "piece length", .int (i.piece_length : Int)),
                         (key_bytes "pieces", .bytes i.pieces.flatten)] ++ 101 :: [])) := by
      rw [← hshape2]
      exact parse_str_enc _ _
    have hpv0 := parse_value_int_overflow f i.length
      (encode_pairs [(key_bytes "name", .bytes i.name),
                     (key_bytes "piece length", .int (i.piece_length : Int)),
                     (key_bytes "pieces", .bytes i.pieces.flatten)] ++ 101 :: []) hgt
    rw [hentries, hshape2]
    simp only [parse_pairs]
    rw [if_neg (by omega)]
    simp only [hps, hpv0]
  have hpv : ∀ N, 0 < N → parse_value (N + 1) (encode_info i) = none := by
    intro N hN
    obtain ⟨f, rfl⟩ : ∃ f, N = f + 1 := ⟨N - 1, by omega⟩
    rw [encode_info_shape]
    simp only [parse_value, if_true]
    rw [hpairs f]
    norm_num
  have h0 : 0 < (encode_info i).length := by omega
  simp only [decode_info, hpv (encode_info i).length h0]

/-- Claim C6 counterexample: at `Info { length = 2^63, name = "a",
piece_length = 1, pieces = [] }` the program's decode of its own canonical
encoding fails — `serde_bencode` parses every integer through
`str::parse::<i64>`, which overflows at `2^63` — so `decode (encode info)`
is an error, not `.ok info`, refuting the round trip as stated for every
structured `Info`. -/
theorem info_roundtrip_cex :
    decode_info (encode_info ⟨9223372036854775808, [97], 1, []⟩) =
      .error "malformed bencode" ∧
    decode_info (encode_info ⟨9223372036854775808, [97], 1, []⟩) ≠
      .ok ⟨9223372036854775808, [97], 1, []⟩ := by
  have h := decode_info_overflow ⟨9223372036854775808, [97], 1, []⟩ (by norm_num)
  refine ⟨h, ?_⟩
  rw [h]
  intro hcontra
  exact Except.noConfusion hcontra

/-- Claim C6 amended: for every structured `Info` value whose `u64` integer
fields fit in `i64` (at most `2^63 - 1` — larger values fail to decode
because `serde_bencode` parses integers through `str::parse::<i64>`),
decoding the canonical bencode encoding yields an `Info` equal
field-for-field to the original, and the encoding is idempotent —
re-encoding any decode of a canonical encoding reproduces the same bytes;
in particular deserializing the serialized `Hashes` yields the same list of
20-byte hashes.  The `Info.wf` hypothesis states what the Rust types
enforce by construction. -/
theorem info_roundtrip_i64 :
    (∀ i : Info, i.wf →
       i.length ≤ 9223372036854775807 → i.piece_length ≤ 9223372036854775807 →
       decode_info (encode_info i) = .ok i ∧
       ∀ j : Info, decode_info (encode_info i) = .ok j → encode_info j = encode_info i) ∧
    ∀ hs : List (List Nat), (∀ h ∈ hs, h.length = 20) →
      hashes_visit_bytes (hashes_serialize hs) = .ok hs := by
  constructor
  · intro i hwf hl64 hp64
    have hdec := decode_info_encode i hwf hl64 hp64
    refine ⟨hdec, ?_⟩
    intro j hj
    rw [hdec] at hj
    simp only [Except.ok.injEq] at hj
    rw [hj]
  · intro hs h
    exact hashes_visit_flatten hs h

/-- Claim C6 witness: round trip and hash-list round trip at a concrete
well-formed `Info` with in-range fields. -/
theorem info_roundtrip_i64_witness :
    decode_info (encode_info ⟨3, [97, 98], 2, [List.replicate 20 5]⟩) =
      .ok ⟨3, [97, 98], 2, [List.replicate 20 5]⟩ ∧
    hashes_visit_bytes (hashes_serialize [List.replicate 20 5]) =
      .ok [List.replicate 20 5] := by
  have hlens : ∀ h ∈ [List.replicate 20 5], h.length = 20 := by
    intro p hp
    simp only [List.mem_singleton] at hp
    rw [hp]
    simp
  have hwf : (Info.mk 3 [97, 98] 2 [List.replicate 20 5]).wf := by
    refine ⟨by norm_num, by norm_num, hlens⟩
  exact ⟨(info_roundtrip_i64.1 ⟨3, [97, 98], 2, [List.replicate 20 5]⟩ hwf
            (by norm_num) (by norm_num)).1,
         info_roundtrip_i64.2 [List.replicate 20 5] hlens⟩

end BitTorrent
